import Mathlib

/-!
Verification development for the Auto_Doc repository: a single-page
project-form application (`src/App.tsx`) with a PDF document renderer
(`src/utils/generatePDF.ts`).  JavaScript strings are modelled as lists of
characters (`JStr`); the stateful React handlers are modelled as pure
functions on an explicit view-state record; the PDF layout routine is
modelled as a pure computation of the vertical cursor, the page count and
the list of rendered sections, with the external jsPDF text-measurement
facility (`splitTextToSize`) passed in as an explicit parameter.
-/

namespace AutoDoc

/-- JavaScript strings, modelled as lists of UTF-16-style characters. -/
abbrev JStr := List Char

/-- The whitespace characters stripped by JavaScript's `String.prototype.trim`
(restricted to the ASCII whitespace relevant to this application). -/
def jsWhitespace (c : Char) : Bool :=
  c = ' ' || c = '\t' || c = '\n' || c = '\r'

/-- Embedding of JavaScript `String.prototype.trim`: drop whitespace from
both ends. -/
def jtrim (s : JStr) : JStr :=
  ((s.dropWhile jsWhitespace).reverse.dropWhile jsWhitespace).reverse

/-- JavaScript truthiness of a string: nonempty strings are truthy. -/
def jtruthy (s : JStr) : Bool := !s.isEmpty

/-- JavaScript truthiness of an optional string field: `undefined` and the
empty string are falsy. -/
def jtruthyO (o : Option JStr) : Bool :=
  match o with
  | none => false
  | some s => !s.isEmpty

/-- Embedding of JavaScript `s.split(" ")` (split on the single-space
separator; adjacent separators and boundary separators produce empty
fragments, and the empty string yields one empty fragment). -/
def splitOnSpace : JStr → List JStr
  | [] => [[]]
  | c :: cs =>
    if c = ' ' then [] :: splitOnSpace cs
    else
      match splitOnSpace cs with
      | [] => [[c]]
      | w :: ws => (c :: w) :: ws

/-- `truncateName` from `generatePDF.ts` (lines 5-8): a name longer than
`maxLength` is cut to its first `maxLength` characters with an ellipsis
appended; otherwise it is returned unchanged. -/
def truncateName (name : JStr) (maxLength : Nat) : JStr :=
  if name.length ≤ maxLength then name
  else name.take maxLength ++ ['.', '.', '.']

/-- One iteration of the word-wrapping loop of `splitNameForHeader`
(lines 21-28 of `generatePDF.ts`): try to extend the current line with the
next word; on overflow, flush the (nonempty) current line and start a new
line with the word. -/
def wrapStep (maxLineLength : Nat) (st : List JStr × JStr) (word : JStr) :
    List JStr × JStr :=
  let cand := jtrim (st.2 ++ ' ' :: word)
  if cand.length ≤ maxLineLength then (st.1, cand)
  else (if st.2 = [] then st.1 else st.1 ++ [st.2], word)

/-- The word-wrapping loop of `splitNameForHeader` (lines 17-29 of
`generatePDF.ts`), including the flush of the final nonempty current line
after the loop. -/
def wrapLines (maxLineLength : Nat) (truncated : JStr) : List JStr :=
  let st := (splitOnSpace truncated).foldl (wrapStep maxLineLength) ([], [])
  if st.2 = [] then st.1 else st.1 ++ [st.2]

/-- `splitNameForHeader` from `generatePDF.ts` (lines 10-32): truncate the
name to 30 characters, return it as a single line when it fits the per-line
budget, and otherwise wrap it greedily by words, falling back to a hard cut
when the loop produced no line. -/
def splitNameForHeader (name : JStr) (maxLineLength : Nat) : List JStr :=
  let truncated := truncateName name 30
  if truncated.length ≤ maxLineLength then [truncated]
  else
    let lines := wrapLines maxLineLength truncated
    if 0 < lines.length then lines else [truncated.take maxLineLength]

/-- Little-endian decimal digit characters of a natural number, computed with
an explicit fuel argument so that the definition is structurally recursive
(the fuel never runs out when it is at least the number itself). -/
def natToDigitsRevFuel : Nat → Nat → List Char
  | _, 0 => []
  | 0, _ + 1 => []
  | fuel + 1, n + 1 =>
    Nat.digitChar ((n + 1) % 10) :: natToDigitsRevFuel fuel ((n + 1) / 10)

/-- Embedding of JavaScript `Number.prototype.toString()` on the
non-negative integers arising as milestone identifiers: the usual decimal
representation. -/
def natToJStr (n : Nat) : JStr :=
  if n = 0 then ['0'] else (natToDigitsRevFuel n n).reverse

/-- Embedding of JavaScript `parseInt` on the strings arising as milestone
identifiers: fold the longest decimal-digit prefix.  (Real `parseInt`
returns `NaN` when there is no digit prefix; that case is modelled as 0 and
is unreachable on the identifiers this application produces.) -/
def jsParseInt (s : JStr) : Nat :=
  (s.takeWhile Char.isDigit).foldl (fun a c => a * 10 + (c.toNat - 48)) 0

/-- `ProjectStatus` from `types/projects.ts`. -/
inductive ProjectStatus
  | planning
  | in_progress
  | completed
  | on_hold
  | cancelled
deriving DecidableEq

/-- `PDFColor` from `types/projects.ts`. -/
structure PDFColor where
  r : Nat
  g : Nat
  b : Nat
deriving DecidableEq

/-- `ProjectMilestone` from `types/projects.ts`. -/
structure ProjectMilestone where
  id : JStr
  title : JStr
  description : JStr
  completed : Bool
  dueDate : Option JStr
deriving DecidableEq

/-- `TechStack` from `types/projects.ts`: a category label with its ordered
list of technology names. -/
structure TechStack where
  category : JStr
  technologies : List JStr
deriving DecidableEq

/-- `Project` from `types/projects.ts`: the finalized project record. -/
structure Project where
  id : JStr
  uniqueCode : JStr
  name : JStr
  description : JStr
  sector : JStr
  status : ProjectStatus
  startDate : JStr
  endDate : Option JStr
  projectManager : JStr
  team : List JStr
  milestones : List ProjectMilestone
  techStack : List TechStack
  repository : Option JStr
  documentation : Option JStr
  notes : Option JStr
  createdAt : JStr
  updatedAt : JStr
deriving DecidableEq

/-- The form values validated by the zod schema in `App.tsx` (lines 54-86);
optional fields may be absent. -/
structure ProjectFormValues where
  name : JStr
  sector : JStr
  description : Option JStr
  status : ProjectStatus
  startDate : JStr
  endDate : Option JStr
  projectManager : Option JStr
  repository : Option JStr
  documentation : Option JStr
  notes : Option JStr
deriving DecidableEq

/-- JavaScript `x || ""` on an optional string: the string itself when
truthy, the empty string otherwise. -/
def jsOrEmpty (o : Option JStr) : JStr := o.getD []

/-- JavaScript `x || undefined` on an optional string: `undefined` when the
string is absent or empty. -/
def jsOrUndefined (o : Option JStr) : Option JStr :=
  match o with
  | none => none
  | some s => if s = [] then none else some s

/-- The finalized project record built by `handleFormSubmit` in `App.tsx`
(lines 179-199) from the session's unique code, the submit-time timestamp,
the auxiliary list state and the validated form values. -/
def handleFormSubmit (uniqueCode : JStr) (now : JStr) (team : List JStr)
    (milestones : List ProjectMilestone) (techStack : List TechStack)
    (data : ProjectFormValues) : Project :=
  { id := uniqueCode
    uniqueCode := uniqueCode
    name := data.name
    description := jsOrEmpty data.description
    sector := data.sector
    status := data.status
    startDate := data.startDate
    endDate := jsOrUndefined data.endDate
    projectManager := jsOrEmpty data.projectManager
    team := team
    milestones := milestones
    techStack := techStack
    repository := some (jsOrEmpty data.repository)
    documentation := some (jsOrEmpty data.documentation)
    notes := some (jsOrEmpty data.notes)
    createdAt := now
    updatedAt := now }

/-- `addMilestone` from `App.tsx` (lines 224-237), as a function of the
milestone list and the pending title/description inputs: a no-op on
whitespace-only titles, otherwise append a milestone whose identifier is
the last identifier plus one (or `"1"` on the empty list). -/
def addMilestone (ms : List ProjectMilestone) (title description : JStr) :
    List ProjectMilestone :=
  if jtrim title = [] then ms
  else
    ms ++ [{ id := match ms.getLast? with
                   | some last => natToJStr (jsParseInt last.id + 1)
                   | none => ['1']
             title := jtrim title
             description := jtrim description
             completed := false
             dueDate := none }]

/-- `removeMilestone` from `App.tsx` (lines 239-241): drop the milestones
whose identifier equals the given one. -/
def removeMilestone (ms : List ProjectMilestone) (id : JStr) :
    List ProjectMilestone :=
  ms.filter (fun m => m.id ≠ id)

/-- `addTechnology` from `App.tsx` (lines 243-269), as a function of the
tech-stack list: a no-op on whitespace-only input; append the trimmed
technology to the existing group of the chosen category when one exists,
and otherwise push a fresh single-entry group. -/
def addTechnology (stackList : List TechStack) (category technology : JStr) :
    List TechStack :=
  if jtrim technology = [] then stackList
  else
    match stackList.find? (fun s => s.category = category) with
    | some _ =>
      stackList.map (fun s =>
        if s.category = category then
          { s with technologies := s.technologies ++ [jtrim technology] }
        else s)
    | none =>
      stackList ++ [{ category := category
                      technologies := [jtrim technology] }]

/-- `removeTechnology` from `App.tsx` (lines 271-281): filter the given
technology out of the chosen category's group, then drop every group left
without technologies. -/
def removeTechnology (stackList : List TechStack) (category tech : JStr) :
    List TechStack :=
  (stackList.map (fun s =>
    if s.category = category then
      { s with technologies := s.technologies.filter (fun t => t ≠ tech) }
    else s)).filter (fun s => 0 < s.technologies.length)

/-- The view state owned by the `App` component (`App.tsx` lines 120-138):
the session code, the three auxiliary lists, the pending inputs, and the
remaining UI state. -/
structure ViewState where
  uniqueCode : JStr
  team : List JStr
  milestones : List ProjectMilestone
  techStack : List TechStack
  showPreview : Bool
  selectedColor : PDFColor
  newTeamMember : JStr
  newMilestoneTitle : JStr
  newMilestoneDescription : JStr
  newTechCategory : JStr
  newTechTechnology : JStr
  qrCode : JStr
  pdfPreviewUrl : Option JStr
deriving DecidableEq

/-- `addTeamMember` from `App.tsx` (lines 213-218) acting on the view
state: nothing happens when the pending input trims to empty; otherwise the
trimmed name is appended and the input cleared. -/
def addTeamMemberState (st : ViewState) : ViewState :=
  if jtrim st.newTeamMember = [] then st
  else { st with team := st.team ++ [jtrim st.newTeamMember]
                 newTeamMember := [] }

/-- `removeTeamMember` from `App.tsx` (lines 220-222) acting on the view
state: keep the members whose position differs from the given index. -/
def removeTeamMemberState (st : ViewState) (idx : Nat) : ViewState :=
  { st with team := ((st.team.enum.filter (fun q => q.1 ≠ idx)).map Prod.snd) }

/-- `addMilestone` from `App.tsx` acting on the view state: nothing happens
when the pending title trims to empty; otherwise the milestone is appended
and both pending inputs are cleared. -/
def addMilestoneState (st : ViewState) : ViewState :=
  if jtrim st.newMilestoneTitle = [] then st
  else { st with
           milestones := addMilestone st.milestones st.newMilestoneTitle
             st.newMilestoneDescription
           newMilestoneTitle := []
           newMilestoneDescription := [] }

/-- An abstract user action on the milestone list. -/
inductive MilestoneOp
  | add (title description : JStr)
  | remove (id : JStr)

/-- Apply one milestone action. -/
def applyMilestoneOp (ms : List ProjectMilestone) : MilestoneOp →
    List ProjectMilestone
  | MilestoneOp.add t d => addMilestone ms t d
  | MilestoneOp.remove id => removeMilestone ms id

/-- Run a sequence of milestone actions starting from the empty list. -/
def runMilestoneOps (ops : List MilestoneOp) : List ProjectMilestone :=
  ops.foldl applyMilestoneOp []

/-- The numeric values of the identifiers held in a milestone list. -/
def milestoneIds (ms : List ProjectMilestone) : List Nat :=
  ms.map (fun m => jsParseInt m.id)

/-- The identifier invariant of the milestone list: the numeric identifier
values are strictly increasing in list order and start no lower than 1. -/
def MilestoneInv (ms : List ProjectMilestone) : Prop :=
  (milestoneIds ms).Pairwise (· < ·) ∧ ∀ k ∈ milestoneIds ms, 1 ≤ k

/-- The text-measurement facility of jsPDF, external to this repository:
`splitTextToSizeLen text width` is the number of lines `splitTextToSize`
breaks `text` into at the given width. -/
structure TextMetrics where
  splitTextToSizeLen : JStr → Nat → Nat

/-- The jsPDF default page width in millimetres (A4 portrait), as returned
by `doc.internal.pageSize.getWidth()`. -/
def pdfPageWidth : Nat := 210

/-- The content blocks `generateProjectPDF` can lay out after the header. -/
inductive RenderSection
  | statusBadge
  | info
  | description
  | techStack
  | milestones
  | links
  | notes
deriving DecidableEq

/-- The layout-relevant state of the renderer: the number of pages created
so far, the vertical cursor, and the blocks rendered so far. -/
structure LayoutState where
  pages : Nat
  y : Nat
  secs : List RenderSection
deriving DecidableEq

/-- The state after the fixed header, status badge and project-info card of
`generateProjectPDF` (lines 63-155): the cursor starts at 70, the badge
advances it by 15, the info card by 12 plus 7 per each of its four rows
plus 10; no page break can occur in this prefix. -/
def headerInfoState : LayoutState :=
  { pages := 1, y := 70 + 15 + 12 + 4 * 7 + 10
    secs := [RenderSection.statusBadge, RenderSection.info] }

/-- The description block (lines 157-176): rendered only when the
description is truthy; advances the cursor by 10, then by 5 per rendered
line (capped at 6), then by 15 and 4. -/
def descStep (m : TextMetrics) (p : Project) (st : LayoutState) :
    LayoutState :=
  if jtruthy p.description then
    { st with
        y := st.y + 10 +
          min (m.splitTextToSizeLen p.description (pdfPageWidth - 50)) 6 * 5 +
          15 + 4
        secs := st.secs ++ [RenderSection.description] }
  else st

/-- The tech-stack block (lines 178-197): rendered only when the list is
nonempty; advances the cursor by 8, then 7 per group, then 5. -/
def techStep (p : Project) (st : LayoutState) : LayoutState :=
  if p.techStack.isEmpty then st
  else
    { st with y := st.y + 8 + 7 * p.techStack.length + 5
              secs := st.secs ++ [RenderSection.techStack] }

/-- One milestone entry (lines 213-249): page break when the cursor is past
260, advance by 5 for the title, and by 4 per rendered description line
(capped at 2) plus 3 when the description is truthy. -/
def milestoneEntry (m : TextMetrics) (st : Nat × Nat)
    (milestone : ProjectMilestone) : Nat × Nat :=
  let st := if 260 < st.2 then (st.1 + 1, 20) else st
  let y := st.2 + 5
  let y :=
    if jtruthy milestone.description then
      y + min (m.splitTextToSizeLen milestone.description (pdfPageWidth - 45))
            2 * 4 + 3
    else y
  (st.1, y)

/-- The milestones block (lines 199-251): rendered only when the list is
nonempty; page break when the cursor is past 220, advance by 10 for the
block header, fold over the entries, then advance by 5. -/
def milestonesStep (m : TextMetrics) (p : Project) (st : LayoutState) :
    LayoutState :=
  if p.milestones.isEmpty then st
  else
    let start := if 220 < st.y then (st.pages + 1, 20) else (st.pages, st.y)
    let res := p.milestones.foldl (milestoneEntry m) (start.1, start.2 + 10)
    { pages := res.1, y := res.2 + 5
      secs := st.secs ++ [RenderSection.milestones] }

/-- The links block (lines 253-293): rendered only when the repository or
the documentation link is truthy; page break when the cursor is past 240,
advance by 8 for the block header, by 6 for the repository line and by 10
for the documentation line. -/
def linksStep (p : Project) (st : LayoutState) : LayoutState :=
  if jtruthyO p.repository || jtruthyO p.documentation then
    let start := if 240 < st.y then (st.pages + 1, 20) else (st.pages, st.y)
    let y := start.2 + 8
    let y := if jtruthyO p.repository then y + 6 else y
    let y := if jtruthyO p.documentation then y + 10 else y
    { pages := start.1, y := y, secs := st.secs ++ [RenderSection.links] }
  else st

/-- The notes block (lines 295-318): rendered only when the notes are
truthy; page break when the cursor is past 230, advance by 10 for the block
header (the note text itself is the last drawing operation). -/
def notesStep (p : Project) (st : LayoutState) : LayoutState :=
  if jtruthyO p.notes then
    let start := if 230 < st.y then (st.pages + 1, 20) else (st.pages, st.y)
    { pages := start.1, y := start.2 + 10
      secs := st.secs ++ [RenderSection.notes] }
  else st

/-- The full layout pass of `generateProjectPDF` after a successful QR-code
generation; the footer loop (lines 320-334) only writes onto the pages
already created, so the final page count is `(renderLayout m p).pages`. -/
def renderLayout (m : TextMetrics) (p : Project) : LayoutState :=
  notesStep p (linksStep p (milestonesStep m p (techStep p
    (descStep m p headerInfoState))))

/-- `generateProjectPDF` from `generatePDF.ts` (lines 45-359): the QR-code
encoder (external, fallible) is applied to the project's unique code and is
awaited before anything is drawn; a rejection propagates and no document is
produced, and on success the layout runs to completion. -/
def generateProjectPDF (m : TextMetrics)
    (qrToDataURL : JStr → Except JStr JStr) (p : Project) :
    Except JStr LayoutState :=
  match qrToDataURL p.uniqueCode with
  | Except.error e => Except.error e
  | Except.ok _ => Except.ok (renderLayout m p)

/-- A trivial text-measurement stand-in used by the concrete witnesses:
every text occupies one line. -/
def sampleMetrics : TextMetrics := { splitTextToSizeLen := fun _ _ => 1 }

/-- A QR encoder that always succeeds, for the concrete witnesses. -/
def sampleQrOk : JStr → Except JStr JStr := fun s => Except.ok s

/-- A QR encoder that always fails, for the concrete witnesses. -/
def sampleQrFail : JStr → Except JStr JStr := fun _ => Except.error ['E']

/-- Form values with every optional field absent, for the witnesses. -/
def sampleForm : ProjectFormValues :=
  { name := ['n'], sector := ['s'], description := none
    status := ProjectStatus.planning, startDate := ['d'], endDate := none
    projectManager := none, repository := none, documentation := none
    notes := none }

/-- A finalized record with no optional content, for the witnesses. -/
def sampleEmptyProject : Project :=
  handleFormSubmit ['c'] ['t'] [] [] [] sampleForm

/-- A view state with one team member and nonblank pending inputs, for the
witnesses. -/
def sampleViewState : ViewState :=
  { uniqueCode := ['c'], team := [['x']], milestones := [], techStack := []
    showPreview := true, selectedColor := { r := 139, g := 92, b := 246 }
    newTeamMember := ['a'], newMilestoneTitle := ['m']
    newMilestoneDescription := [], newTechCategory := ['F']
    newTechTechnology := [], qrCode := [], pdfPreviewUrl := none }

/-- A view state whose pending inputs are whitespace-only, for the
witnesses. -/
def sampleIdleState : ViewState :=
  { sampleViewState with newTeamMember := [' '], newMilestoneTitle := [' '] }

theorem truncateName_idem (name : JStr) :
    truncateName (truncateName name 30) 30 = truncateName name 30 := by
  by_cases h : name.length ≤ 30
  · simp [truncateName, h]
  · have hlen : (name.take 30).length = 30 := by
      simp [List.length_take]
      omega
    have hlen3 : (name.take 30 ++ ['.', '.', '.']).length = 33 := by
      simp [List.length_append, hlen]
    have htake : (name.take 30 ++ ['.', '.', '.']).take 30 = name.take 30 := by
      have h0 := List.take_left (name.take 30) ['.', '.', '.']
      rw [hlen] at h0
      exact h0
    simp only [truncateName, if_neg h]
    rw [if_neg (by omega : ¬(name.take 30 ++ ['.', '.', '.']).length ≤ 30)]
    rw [htake]

/-- Claim C2: a name longer than 30 characters truncates to its first 30
characters plus an ellipsis, a name of at most 30 characters is unchanged,
and `splitNameForHeader` applies the truncation before any line-wrapping
(wrapping the already-truncated name gives the same lines). -/
theorem truncateName_spec (name : JStr) :
    (name.length ≤ 30 → truncateName name 30 = name) ∧
    (30 < name.length →
      truncateName name 30 = name.take 30 ++ ['.', '.', '.']) ∧
    splitNameForHeader name 20 = splitNameForHeader (truncateName name 30) 20 := by
  refine ⟨fun h => by simp [truncateName, h], fun h => ?_, ?_⟩
  · simp [truncateName, Nat.not_le.mpr h]
  · simp only [splitNameForHeader, truncateName_idem]

theorem truncateName_spec_witness :
    (30 < (List.replicate 40 'a').length ∧
      truncateName (List.replicate 40 'a') 30 =
        (List.replicate 40 'a').take 30 ++ ['.', '.', '.']) ∧
    ((List.replicate 20 'b').length ≤ 30 ∧
      truncateName (List.replicate 20 'b') 30 = List.replicate 20 'b') :=
  ⟨⟨by decide, (truncateName_spec (List.replicate 40 'a')).2.1 (by decide)⟩,
   ⟨by decide, (truncateName_spec (List.replicate 20 'b')).1 (by decide)⟩⟩

theorem splitOnSpace_ne_nil (s : JStr) : splitOnSpace s ≠ [] := by
  cases s with
  | nil => simp [splitOnSpace]
  | cons c cs =>
    unfold splitOnSpace
    by_cases h : c = ' '
    · simp [h]
    · simp only [if_neg h]
      split <;> simp

theorem splitOnSpace_no_space (s : JStr) :
    ∀ w ∈ splitOnSpace s, ' ' ∉ w := by
  induction s with
  | nil =>
    intro w hw
    simp [splitOnSpace] at hw
    simp [hw]
  | cons c cs ih =>
    intro w hw
    unfold splitOnSpace at hw
    by_cases h : c = ' '
    · rw [if_pos h] at hw
      rcases List.mem_cons.mp hw with h1 | h1
      · simp [h1]
      · exact ih w h1
    · rw [if_neg h] at hw
      rcases hsp : splitOnSpace cs with _ | ⟨w0, ws⟩
      · exact absurd hsp (splitOnSpace_ne_nil cs)
      · rw [hsp] at hw
        rcases List.mem_cons.mp hw with h1 | h1
        · subst h1
          intro hc
          rcases List.mem_cons.mp hc with h2 | h2
          · exact h h2.symm
          · have hw0 : w0 ∈ splitOnSpace cs := by
              rw [hsp]; exact List.mem_cons_self w0 ws
            exact ih w0 hw0 h2
        · have hwmem : w ∈ splitOnSpace cs := by
            rw [hsp]; exact List.mem_cons.mpr (Or.inr h1)
          exact ih w hwmem

theorem wrapStep_inv (k : Nat) (st : List JStr × JStr) (w : JStr)
    (hw : ' ' ∉ w)
    (h1 : ∀ l ∈ st.1, l.length ≤ k ∨ ' ' ∉ l)
    (h2 : st.2.length ≤ k ∨ ' ' ∉ st.2) :
    (∀ l ∈ (wrapStep k st w).1, l.length ≤ k ∨ ' ' ∉ l) ∧
    ((wrapStep k st w).2.length ≤ k ∨ ' ' ∉ (wrapStep k st w).2) := by
  by_cases hc : (jtrim (st.2 ++ ' ' :: w)).length ≤ k
  · refine ⟨?_, ?_⟩
    · intro l hl
      simp only [wrapStep, if_pos hc] at hl
      exact h1 l hl
    · simp only [wrapStep, if_pos hc]
      exact Or.inl hc
  · by_cases he : st.2 = []
    · refine ⟨?_, ?_⟩
      · intro l hl
        simp only [wrapStep, if_neg hc, if_pos he] at hl
        exact h1 l hl
      · simp only [wrapStep, if_neg hc]
        exact Or.inr hw
    · refine ⟨?_, ?_⟩
      · intro l hl
        simp only [wrapStep, if_neg hc, if_neg he] at hl
        rcases List.mem_append.mp hl with h3 | h3
        · exact h1 l h3
        · rw [List.mem_singleton] at h3
          subst h3
          exact h2
      · simp only [wrapStep, if_neg hc]
        exact Or.inr hw

theorem wrapFold_inv (k : Nat) (words : List JStr) :
    (∀ w ∈ words, ' ' ∉ w) →
    ∀ st : List JStr × JStr,
      (∀ l ∈ st.1, l.length ≤ k ∨ ' ' ∉ l) →
      (st.2.length ≤ k ∨ ' ' ∉ st.2) →
      (∀ l ∈ (words.foldl (wrapStep k) st).1, l.length ≤ k ∨ ' ' ∉ l) ∧
      ((words.foldl (wrapStep k) st).2.length ≤ k ∨
        ' ' ∉ (words.foldl (wrapStep k) st).2) := by
  induction words with
  | nil => exact fun _ st h1 h2 => ⟨h1, h2⟩
  | cons w ws ih =>
    intro hw st h1 h2
    simp only [List.foldl_cons]
    have hstep := wrapStep_inv k st w (hw w (List.mem_cons_self w ws)) h1 h2
    exact ih (fun x hx => hw x (List.mem_cons.mpr (Or.inr hx)))
      (wrapStep k st w) hstep.1 hstep.2

theorem wrapLines_inv (k : Nat) (t : JStr) :
    ∀ l ∈ wrapLines k t, l.length ≤ k ∨ ' ' ∉ l := by
  intro l hl
  have hinv := wrapFold_inv k (splitOnSpace t) (splitOnSpace_no_space t)
    ([], []) (by simp) (Or.inl (by simp))
  simp only [wrapLines] at hl
  split at hl
  · exact hinv.1 l hl
  · rcases List.mem_append.mp hl with h3 | h3
    · exact hinv.1 l h3
    · rw [List.mem_singleton] at h3
      subst h3
      exact hinv.2

/-- Claim C3 (amended): every line returned by `splitNameForHeader` either
fits the 20-character budget or is a single space-free word longer than the
budget (a word that alone exceeds the budget becomes its own overlong
line); a truncated name within the budget is returned as the single
line. -/
theorem splitNameForHeader_spec (name : JStr) :
    (∀ l ∈ splitNameForHeader name 20, l.length ≤ 20 ∨ ' ' ∉ l) ∧
    ((truncateName name 30).length ≤ 20 →
      splitNameForHeader name 20 = [truncateName name 30]) := by
  by_cases h : (truncateName name 30).length ≤ 20
  · refine ⟨?_, fun _ => by simp [splitNameForHeader, h]⟩
    intro l hl
    simp [splitNameForHeader, h] at hl
    subst hl
    exact Or.inl h
  · refine ⟨?_, fun hcon => absurd hcon h⟩
    intro l hl
    simp only [splitNameForHeader, if_neg h] at hl
    split at hl
    · exact wrapLines_inv 20 (truncateName name 30) l hl
    · rw [List.mem_singleton] at hl
      subst hl
      left
      simp [List.length_take]

theorem splitNameForHeader_spec_witness :
    ((['a', 'b'] : JStr).length ≤ 20 ∨ ' ' ∉ (['a', 'b'] : JStr)) ∧
    ((truncateName ['a', 'b'] 30).length ≤ 20 ∧
      splitNameForHeader ['a', 'b'] 20 = [truncateName ['a', 'b'] 30]) :=
  ⟨(splitNameForHeader_spec ['a', 'b']).1 ['a', 'b'] (by decide),
   by decide, (splitNameForHeader_spec ['a', 'b']).2 (by decide)⟩

/-- Claim C3 counterexample: for the 25-character space-free name
`"aaaaaaaaaaaaaaaaaaaaaaaaa"`, `splitNameForHeader` returns a single line
of length 25, so not every returned line has length at most 20. -/
theorem splitNameForHeader_counterexample :
    ¬ (∀ l ∈ splitNameForHeader (List.replicate 25 'a') 20,
        l.length ≤ 20) := by decide

/-- Claim C4: removing the sole technology of a category's group removes
the group from the list; removing a technology from a group that also
holds other technologies leaves the group present with exactly the
remaining entries in their original order.  The category labels are
assumed distinct, as every list reachable through `addTechnology` keeps
them. -/
theorem removeTechnology_spec (stackList : List TechStack) (tech : JStr)
    (g : TechStack) (hg : g ∈ stackList)
    (hnodup : (stackList.map TechStack.category).Nodup) :
    (g.technologies = [tech] →
      ∀ s ∈ removeTechnology stackList g.category tech,
        s.category ≠ g.category) ∧
    ((∃ t ∈ g.technologies, t ≠ tech) →
      (∃ s ∈ removeTechnology stackList g.category tech,
         s.category = g.category ∧
         s.technologies = g.technologies.filter (fun t => t ≠ tech)) ∧
      (∀ s ∈ removeTechnology stackList g.category tech,
         s.category = g.category →
         s.technologies = g.technologies.filter (fun t => t ≠ tech))) := by
  have key : ∀ s ∈ removeTechnology stackList g.category tech,
      s.category = g.category →
      s.technologies = g.technologies.filter (fun t => t ≠ tech) ∧
      0 < s.technologies.length := by
    intro s hs hcat
    simp only [removeTechnology, List.mem_filter, List.mem_map,
      decide_eq_true_eq] at hs
    obtain ⟨⟨a, ha, hfa⟩, hpos⟩ := hs
    by_cases hb : a.category = g.category
    · rw [if_pos hb] at hfa
      have hag : a = g := List.inj_on_of_nodup_map hnodup ha hg hb
      subst hag
      refine ⟨?_, hpos⟩
      rw [← hfa]
    · rw [if_neg hb] at hfa
      rw [← hfa] at hcat
      exact absurd hcat hb
  refine ⟨?_, ?_⟩
  · intro h1 s hs hcat
    obtain ⟨hts, hpos⟩ := key s hs hcat
    rw [h1] at hts
    simp at hts
    rw [hts] at hpos
    simp at hpos
  · rintro ⟨t, ht, htne⟩
    have hmem :
        ({ g with technologies := g.technologies.filter (fun t => t ≠ tech) }
          : TechStack) ∈ removeTechnology stackList g.category tech := by
      simp only [removeTechnology, List.mem_filter, List.mem_map,
        decide_eq_true_eq]
      refine ⟨⟨g, hg, by rw [if_pos rfl]⟩, ?_⟩
      have hmt : t ∈ g.technologies.filter (fun t => t ≠ tech) :=
        List.mem_filter.mpr ⟨ht, by simp [htne]⟩
      exact List.length_pos.mpr (List.ne_nil_of_mem hmt)
    exact ⟨⟨_, hmem, rfl, rfl⟩, fun s hs hcat => (key s hs hcat).1⟩

theorem removeTechnology_spec_witness :
    (∀ s ∈ removeTechnology [{ category := ['F'], technologies := [['R']] }]
        ['F'] ['R'], s.category ≠ ['F']) ∧
    (∃ s ∈ removeTechnology
        [{ category := ['B'], technologies := [['N'], ['P']] }] ['B'] ['N'],
       s.category = ['B'] ∧
       s.technologies = [['N'], ['P']].filter (fun t => t ≠ (['N'] : JStr))) :=
  ⟨(removeTechnology_spec [{ category := ['F'], technologies := [['R']] }]
      ['R'] { category := ['F'], technologies := [['R']] } (by decide)
      (by decide)).1 rfl,
   ((removeTechnology_spec
      [{ category := ['B'], technologies := [['N'], ['P']] }]
      ['N'] { category := ['B'], technologies := [['N'], ['P']] } (by decide)
      (by decide)).2 ⟨['P'], by decide, by decide⟩).1⟩

/-- Claim C5: adding a technology to a category with no existing group
creates exactly one group for that category holding the single trimmed
entry, and adding a second technology to the same category appends to that
one group, preserving insertion order. -/
theorem addTechnology_spec (stackList : List TechStack) (c s1 s2 : JStr)
    (hnone : ∀ g ∈ stackList, g.category ≠ c)
    (h1 : jtrim s1 ≠ []) (h2 : jtrim s2 ≠ []) :
    (addTechnology stackList c s1).filter (fun g => g.category = c) =
      [{ category := c, technologies := [jtrim s1] }] ∧
    (addTechnology (addTechnology stackList c s1) c s2).filter
        (fun g => g.category = c) =
      [{ category := c, technologies := [jtrim s1, jtrim s2] }] := by
  have hfind : stackList.find? (fun s => s.category = c) = none :=
    List.find?_eq_none.mpr (fun x hx => by simpa using hnone x hx)
  have hfilnil : stackList.filter (fun g => g.category = c) = [] :=
    List.filter_eq_nil_iff.mpr (fun a ha => by simpa using hnone a ha)
  have e1 : addTechnology stackList c s1 =
      stackList ++ [{ category := c, technologies := [jtrim s1] }] := by
    simp only [addTechnology, if_neg h1, hfind]
  have f1 : (addTechnology stackList c s1).filter (fun g => g.category = c) =
      [{ category := c, technologies := [jtrim s1] }] := by
    rw [e1, List.filter_append, hfilnil]
    simp
  refine ⟨f1, ?_⟩
  have e2 : addTechnology (addTechnology stackList c s1) c s2 =
      stackList ++ [{ category := c, technologies := [jtrim s1, jtrim s2] }] := by
    rw [e1]
    have hfind2 :
        List.find? (fun s => s.category = c)
          (stackList ++
            [({ category := c, technologies := [jtrim s1] } : TechStack)]) =
          some { category := c, technologies := [jtrim s1] } := by
      rw [List.find?_append, hfind]
      simp
    simp only [addTechnology, if_neg h2, hfind2]
    rw [List.map_append]
    have hmapid : List.map (fun s =>
        if s.category = c then
          ({ s with technologies := s.technologies ++ [jtrim s2] } : TechStack)
        else s) stackList = stackList := by
      conv_rhs => rw [← List.map_id stackList]
      exact List.map_congr_left (fun a ha => by simp [hnone a ha])
    rw [hmapid]
    simp
  rw [e2, List.filter_append, hfilnil]
  simp

theorem removeTeam_helper (x : JStr) :
    ∀ (l : List JStr) (n : Nat),
      (((l ++ [x]).enumFrom n).filter (fun q => q.1 ≠ n + l.length)).map
        Prod.snd = l := by
  intro l
  induction l with
  | nil =>
    intro n
    simp [List.enumFrom]
  | cons a t ih =>
    intro n
    have hlen : n + (a :: t).length = n + 1 + t.length := by
      simp only [List.length_cons]
      omega
    rw [hlen, List.cons_append]
    rw [show List.enumFrom n (a :: (t ++ [x])) =
        (n, a) :: List.enumFrom (n + 1) (t ++ [x]) from rfl]
    rw [List.filter_cons]
    rw [if_pos (by simp only [ne_eq, decide_eq_true_eq]; omega)]
    rw [List.map_cons]
    rw [ih (n + 1)]

/-- Claim C6: appending a team member from a nonblank pending input and
then removing the member at the index of the appended entry (the prior
team length) restores the team list exactly. -/
theorem addRemoveTeamMember_inverse (st : ViewState)
    (h : jtrim st.newTeamMember ≠ []) :
    (removeTeamMemberState (addTeamMemberState st) st.team.length).team =
      st.team := by
  simp only [addTeamMemberState, if_neg h, removeTeamMemberState]
  have h0 := removeTeam_helper (jtrim st.newTeamMember) st.team 0
  simpa [List.enum] using h0

theorem addRemoveTeamMember_inverse_witness :
    jtrim sampleViewState.newTeamMember ≠ [] ∧
    (removeTeamMemberState (addTeamMemberState sampleViewState)
        sampleViewState.team.length).team = sampleViewState.team :=
  ⟨by decide, addRemoveTeamMember_inverse sampleViewState (by decide)⟩

/-- Claim C8: when the pending team-member input trims to empty,
`addTeamMember` leaves the whole view state unchanged, and likewise
`addMilestone` when the pending milestone title trims to empty. -/
theorem blankInput_noop (st : ViewState) :
    (jtrim st.newTeamMember = [] → addTeamMemberState st = st) ∧
    (jtrim st.newMilestoneTitle = [] → addMilestoneState st = st) :=
  ⟨fun h => by simp [addTeamMemberState, h],
   fun h => by simp [addMilestoneState, h]⟩

theorem blankInput_noop_witness :
    (jtrim sampleIdleState.newTeamMember = [] ∧
      addTeamMemberState sampleIdleState = sampleIdleState) ∧
    (jtrim sampleIdleState.newMilestoneTitle = [] ∧
      addMilestoneState sampleIdleState = sampleIdleState) :=
  ⟨⟨by decide, (blankInput_noop sampleIdleState).1 (by decide)⟩,
   ⟨by decide, (blankInput_noop sampleIdleState).2 (by decide)⟩⟩

/-- Claim C10: the record built by `handleFormSubmit` is internally
consistent: its `id` equals its `uniqueCode` (both the session code), and
`createdAt` equals `updatedAt` (both the single submit-time timestamp). -/
theorem handleFormSubmit_consistent (uniqueCode now : JStr)
    (team : List JStr) (milestones : List ProjectMilestone)
    (techStack : List TechStack) (data : ProjectFormValues) :
    (handleFormSubmit uniqueCode now team milestones techStack data).id =
      (handleFormSubmit uniqueCode now team milestones techStack
        data).uniqueCode ∧
    (handleFormSubmit uniqueCode now team milestones techStack data).id =
      uniqueCode ∧
    (handleFormSubmit uniqueCode now team milestones techStack
        data).createdAt =
      (handleFormSubmit uniqueCode now team milestones techStack
        data).updatedAt ∧
    (handleFormSubmit uniqueCode now team milestones techStack
        data).createdAt = now :=
  ⟨rfl, rfl, rfl, rfl⟩

theorem addTechnology_spec_witness :
    (addTechnology [] ['F'] ['R', ' ']).filter (fun g => g.category = ['F']) =
      [{ category := ['F'], technologies := [jtrim ['R', ' ']] }] ∧
    (addTechnology (addTechnology [] ['F'] ['R', ' ']) ['F'] ['V']).filter
        (fun g => g.category = ['F']) =
      [{ category := ['F'],
         technologies := [jtrim ['R', ' '], jtrim ['V']] }] :=
  addTechnology_spec [] ['F'] ['R', ' '] ['V'] (by simp) (by decide)
    (by decide)

theorem digitChar_toNat (d : Nat) (h : d < 10) :
    (Nat.digitChar d).toNat = 48 + d := by
  interval_cases d <;> decide

theorem digitChar_isDigit (d : Nat) (h : d < 10) :
    (Nat.digitChar d).isDigit = true := by
  interval_cases d <;> decide

theorem natToDigitsRevFuel_isDigit :
    ∀ f n : Nat, n ≤ f → ∀ c ∈ natToDigitsRevFuel f n, c.isDigit = true := by
  intro f
  induction f with
  | zero =>
    intro n hn c hc
    interval_cases n
    simp [natToDigitsRevFuel] at hc
  | succ f ih =>
    intro n hn c hc
    cases n with
    | zero => simp [natToDigitsRevFuel] at hc
    | succ m =>
      simp only [natToDigitsRevFuel] at hc
      rcases List.mem_cons.mp hc with h1 | h1
      · subst h1
        exact digitChar_isDigit _ (Nat.mod_lt _ (by omega))
      · have hdiv : (m + 1) / 10 < m + 1 := Nat.div_lt_self (by omega) (by omega)
        exact ih ((m + 1) / 10) (by omega) c h1

theorem parseFold_fuel :
    ∀ f n a : Nat, n ≤ f →
      ((natToDigitsRevFuel f n).reverse).foldl
          (fun acc c => acc * 10 + (c.toNat - 48)) a =
        a * 10 ^ (natToDigitsRevFuel f n).length + n := by
  intro f
  induction f with
  | zero =>
    intro n a hn
    interval_cases n
    simp [natToDigitsRevFuel]
  | succ f ih =>
    intro n a hn
    cases n with
    | zero => simp [natToDigitsRevFuel]
    | succ m =>
      have hdiv : (m + 1) / 10 < m + 1 := Nat.div_lt_self (by omega) (by omega)
      simp only [natToDigitsRevFuel, List.reverse_cons, List.foldl_append,
        List.length_cons]
      rw [ih ((m + 1) / 10) a (by omega)]
      simp only [List.foldl_cons, List.foldl_nil]
      rw [digitChar_toNat _ (Nat.mod_lt _ (by omega))]
      have hmod : 48 + (m + 1) % 10 - 48 = (m + 1) % 10 := by omega
      rw [hmod]
      have hdm : 10 * ((m + 1) / 10) + (m + 1) % 10 = m + 1 :=
        Nat.div_add_mod (m + 1) 10
      calc (a * 10 ^ (natToDigitsRevFuel f ((m + 1) / 10)).length +
              (m + 1) / 10) * 10 + (m + 1) % 10
          = a * (10 ^ (natToDigitsRevFuel f ((m + 1) / 10)).length * 10) +
              (10 * ((m + 1) / 10) + (m + 1) % 10) := by ring
        _ = a * 10 ^ ((natToDigitsRevFuel f ((m + 1) / 10)).length + 1) +
              (m + 1) := by rw [hdm, pow_succ]

theorem jsParseInt_natToJStr (n : Nat) : jsParseInt (natToJStr n) = n := by
  by_cases h : n = 0
  · subst h
    decide
  · simp only [natToJStr, if_neg h]
    have hdig : ∀ c ∈ (natToDigitsRevFuel n n).reverse,
        Char.isDigit c = true := fun c hc =>
      natToDigitsRevFuel_isDigit n n le_rfl c (List.mem_reverse.mp hc)
    simp only [jsParseInt]
    rw [List.takeWhile_eq_self_iff.mpr hdig]
    rw [parseFold_fuel n n 0 le_rfl]
    simp

theorem pairwise_le_getLast :
    ∀ l : List Nat, l.Pairwise (· < ·) →
      ∀ a ∈ l, ∀ y, l.getLast? = some y → a ≤ y := by
  intro l
  induction l with
  | nil => intro _ a ha; simp at ha
  | cons b t ih =>
    intro hp a ha y hy
    rcases List.pairwise_cons.mp hp with ⟨hb, ht⟩
    rcases List.mem_cons.mp ha with h1 | h1
    · subst h1
      cases t with
      | nil =>
        rw [List.getLast?_singleton] at hy
        injection hy with hy
        omega
      | cons c t' =>
        rw [List.getLast?_cons_cons] at hy
        have hcy : c ≤ y := ih ht c (List.mem_cons_self c t') y hy
        have hac : a < c := hb c (List.mem_cons_self c t')
        omega
    · cases t with
      | nil => simp at h1
      | cons c t' =>
        rw [List.getLast?_cons_cons] at hy
        exact ih ht a h1 y hy

theorem pairwise_lt_append_last (l : List Nat) (x : Nat)
    (hp : l.Pairwise (· < ·))
    (hx : ∀ y, l.getLast? = some y → y < x) :
    (l ++ [x]).Pairwise (· < ·) := by
  refine List.pairwise_append.mpr ⟨hp, List.pairwise_singleton _ _, ?_⟩
  intro a ha b hb
  rw [List.mem_singleton] at hb
  subst hb
  have hne : l ≠ [] := List.ne_nil_of_mem ha
  have hl := List.getLast?_eq_getLast l hne
  exact lt_of_le_of_lt (pairwise_le_getLast l hp a ha _ hl) (hx _ hl)

theorem addMilestone_ids (ms : List ProjectMilestone) (t d : JStr)
    (ht : jtrim t ≠ []) :
    milestoneIds (addMilestone ms t d) =
      milestoneIds ms ++
        [match ms.getLast? with
         | some last => jsParseInt last.id + 1
         | none => 1] := by
  simp only [addMilestone, if_neg ht, milestoneIds, List.map_append,
    List.map_cons, List.map_nil]
  congr 1
  cases hms : ms.getLast? with
  | none => decide
  | some last => simp [jsParseInt_natToJStr]

theorem addMilestone_inv (ms : List ProjectMilestone) (t d : JStr)
    (h : MilestoneInv ms) : MilestoneInv (addMilestone ms t d) := by
  by_cases ht : jtrim t = []
  · simpa [addMilestone, ht] using h
  · unfold MilestoneInv
    rw [addMilestone_ids ms t d ht]
    constructor
    · apply pairwise_lt_append_last _ _ h.1
      intro y hy
      cases hms : ms.getLast? with
      | none =>
        rw [List.getLast?_eq_none_iff] at hms
        subst hms
        simp [milestoneIds] at hy
      | some last =>
        have hly : (milestoneIds ms).getLast? = some (jsParseInt last.id) := by
          rw [milestoneIds, List.getLast?_map, hms]
          rfl
        rw [hly] at hy
        injection hy with hy
        subst hy
        change jsParseInt last.id < jsParseInt last.id + 1
        omega
    · intro k hk
      rcases List.mem_append.mp hk with h1 | h1
      · exact h.2 k h1
      · rw [List.mem_singleton] at h1
        subst h1
        cases hms : ms.getLast? with
        | none =>
          change 1 ≤ (1 : Nat)
          omega
        | some last =>
          change 1 ≤ jsParseInt last.id + 1
          omega

theorem removeMilestone_inv (ms : List ProjectMilestone) (id : JStr)
    (h : MilestoneInv ms) : MilestoneInv (removeMilestone ms id) := by
  have hsub : (removeMilestone ms id).Sublist ms := List.filter_sublist ms
  have hmap : (milestoneIds (removeMilestone ms id)).Sublist
      (milestoneIds ms) := by
    unfold milestoneIds
    exact hsub.map _
  exact ⟨List.Pairwise.sublist hmap h.1, fun k hk => h.2 k (hmap.subset hk)⟩

theorem runMilestoneOps_inv (ops : List MilestoneOp) :
    ∀ ms, MilestoneInv ms → MilestoneInv (ops.foldl applyMilestoneOp ms) := by
  induction ops with
  | nil => exact fun _ h => h
  | cons op rest ih =>
    intro ms h
    simp only [List.foldl_cons]
    apply ih
    cases op with
    | add t d => exact addMilestone_inv ms t d h
    | remove id => exact removeMilestone_inv ms id h

/-- Claim C7: after every sequence of add/remove milestone operations from
the empty list, the numeric identifier values are strictly increasing in
list order (hence the identifier strings are unique) and at least 1, and a
successful add assigns the identifier of the current last milestone plus
one, or 1 on the empty list. -/
theorem milestoneIds_sequential (ops : List MilestoneOp) :
    (milestoneIds (runMilestoneOps ops)).Pairwise (· < ·) ∧
    ((runMilestoneOps ops).map ProjectMilestone.id).Nodup ∧
    (∀ k ∈ milestoneIds (runMilestoneOps ops), 1 ≤ k) ∧
    (∀ (ms : List ProjectMilestone) (t d : JStr), jtrim t ≠ [] →
      milestoneIds (addMilestone ms t d) =
        milestoneIds ms ++
          [match ms.getLast? with
           | some last => jsParseInt last.id + 1
           | none => 1]) := by
  have hinv : MilestoneInv (runMilestoneOps ops) :=
    runMilestoneOps_inv ops [] ⟨List.Pairwise.nil, by simp [milestoneIds]⟩
  refine ⟨hinv.1, ?_, hinv.2, addMilestone_ids⟩
  have hmapped :
      (((runMilestoneOps ops).map ProjectMilestone.id).map jsParseInt).Nodup := by
    rw [List.map_map]
    exact hinv.1.imp (fun hab => Nat.ne_of_lt hab)
  exact List.Nodup.of_map jsParseInt hmapped

/-- Claim C1: for a finalized record with no description, an empty tech
stack, no milestones, no repository or documentation link and no notes,
the renderer omits all five optional blocks, a successful QR encoding
yields a completed document with no error, and the document has exactly
one page. -/
theorem generateProjectPDF_minimal (m : TextMetrics) (p : Project)
    (hd : p.description = [])
    (ht : p.techStack = [])
    (hm : p.milestones = [])
    (hr : jtruthyO p.repository = false)
    (hdoc : jtruthyO p.documentation = false)
    (hn : jtruthyO p.notes = false) :
    (renderLayout m p).pages = 1 ∧
    (renderLayout m p).secs = [RenderSection.statusBadge, RenderSection.info] ∧
    (∀ (enc : JStr → Except JStr JStr) (url : JStr),
      enc p.uniqueCode = Except.ok url →
      generateProjectPDF m enc p = Except.ok (renderLayout m p)) := by
  have hrl : renderLayout m p = headerInfoState := by
    simp [renderLayout, descStep, techStep, milestonesStep, linksStep,
      notesStep, jtruthy, hd, ht, hm, hr, hdoc, hn]
  refine ⟨by rw [hrl]; rfl, by rw [hrl]; rfl, ?_⟩
  intro enc url henc
  simp [generateProjectPDF, henc]

theorem generateProjectPDF_minimal_witness :
    (renderLayout sampleMetrics sampleEmptyProject).pages = 1 ∧
    (renderLayout sampleMetrics sampleEmptyProject).secs =
      [RenderSection.statusBadge, RenderSection.info] ∧
    generateProjectPDF sampleMetrics sampleQrOk sampleEmptyProject =
      Except.ok (renderLayout sampleMetrics sampleEmptyProject) := by
  have h := generateProjectPDF_minimal sampleMetrics sampleEmptyProject
    rfl rfl rfl rfl rfl rfl
  exact ⟨h.1, h.2.1, h.2.2 sampleQrOk sampleEmptyProject.uniqueCode rfl⟩

/-- Claim C9: the QR-encoding call is the renderer's only failure path:
when the encoder rejects, the error propagates upward and no document is
produced, and when it succeeds the total layout computation completes and
a document is returned. -/
theorem generateProjectPDF_failure (m : TextMetrics)
    (enc : JStr → Except JStr JStr) (p : Project) :
    (∀ e, enc p.uniqueCode = Except.error e →
      generateProjectPDF m enc p = Except.error e) ∧
    (∀ url, enc p.uniqueCode = Except.ok url →
      generateProjectPDF m enc p = Except.ok (renderLayout m p)) :=
  ⟨fun e he => by simp [generateProjectPDF, he],
   fun url hu => by simp [generateProjectPDF, hu]⟩

theorem generateProjectPDF_failure_witness :
    generateProjectPDF sampleMetrics sampleQrFail sampleEmptyProject =
      Except.error ['E'] ∧
    generateProjectPDF sampleMetrics sampleQrOk sampleEmptyProject =
      Except.ok (renderLayout sampleMetrics sampleEmptyProject) :=
  ⟨(generateProjectPDF_failure sampleMetrics sampleQrFail
      sampleEmptyProject).1 ['E'] rfl,
   (generateProjectPDF_failure sampleMetrics sampleQrOk
      sampleEmptyProject).2 sampleEmptyProject.uniqueCode rfl⟩

theorem milestoneIds_sequential_witness :
    (milestoneIds (runMilestoneOps [MilestoneOp.add ['a'] []])).Pairwise
      (· < ·) ∧
    1 ≤ (1 : Nat) ∧
    milestoneIds (addMilestone [] ['a'] []) = milestoneIds [] ++ [1] :=
  ⟨(milestoneIds_sequential [MilestoneOp.add ['a'] []]).1,
   (milestoneIds_sequential [MilestoneOp.add ['a'] []]).2.2.1 1 (by decide),
   (milestoneIds_sequential []).2.2.2 [] ['a'] [] (by decide)⟩

end AutoDoc
